import Mathlib

/-
  Verification development for the bird_barrier setup-tracking engine.

  The embedding models the dependency-tracking core:
  - Progress values (src/progress.rs): f32 is modelled by the type F32 below,
    with exact rationals for finite values and explicit NaN / +inf / -inf
    constructors.  Signed zero is not distinguished.  All arithmetic the
    verified claims exercise is exact in IEEE f32 (the involved values are
    representable and the operations incur no rounding), so exact rational
    arithmetic is a faithful model at those points.
  - ProviderInfo and its should_run predicate (src/provider.rs).
  - SetupTracker with register_provider, validate, detect_cycles, progress
    and stages (src/tracker.rs).  HashMap / HashSet iteration order is
    unspecified in the source; the embedding uses association lists whose
    order stands for one possible iteration order.
  - The per-tick scheduler step advance_setup (src/plugin.rs).  The host
    world is an abstract state type; progress-checker systems are modelled
    as pure functions of the world (per the documented contract that
    checkers are safe to call repeatedly without side effects), provider
    bodies and the completion callback as world transformers.
-/

namespace BirdBarrier

/-- Model of an f32 value: finite values are exact rationals, and the three
non-finite classes are explicit constructors.  Signed zero is not
distinguished. -/
inductive F32 : Type where
  | nan : F32
  | inf : F32
  | neginf : F32
  | fin : ℚ → F32
deriving DecidableEq

/-- Machine epsilon of f32, i.e. f32::EPSILON = 2^(-23). -/
def f32_epsilon : ℚ := 1 / 2 ^ 23

/-- f32::is_finite. -/
def F32.isFinite : F32 → Bool
  | .fin _ => true
  | _ => false

/-- IEEE addition on the model (exact on finite values). -/
def F32.add : F32 → F32 → F32
  | .nan, _ => .nan
  | _, .nan => .nan
  | .inf, .neginf => .nan
  | .neginf, .inf => .nan
  | .inf, _ => .inf
  | _, .inf => .inf
  | .neginf, _ => .neginf
  | _, .neginf => .neginf
  | .fin a, .fin b => .fin (a + b)

/-- IEEE multiplication on the model (exact on finite values). -/
def F32.mul : F32 → F32 → F32
  | .nan, _ => .nan
  | _, .nan => .nan
  | .inf, .inf => .inf
  | .inf, .neginf => .neginf
  | .neginf, .inf => .neginf
  | .neginf, .neginf => .inf
  | .inf, .fin b => if b = 0 then .nan else if 0 < b then .inf else .neginf
  | .fin a, .inf => if a = 0 then .nan else if 0 < a then .inf else .neginf
  | .neginf, .fin b => if b = 0 then .nan else if 0 < b then .neginf else .inf
  | .fin a, .neginf => if a = 0 then .nan else if 0 < a then .neginf else .inf
  | .fin a, .fin b => .fin (a * b)

/-- IEEE division on the model: 0/0 is NaN, x/0 for finite nonzero x is a
signed infinity (sign of zero ignored), finite/finite is exact. -/
def F32.div : F32 → F32 → F32
  | .nan, _ => .nan
  | _, .nan => .nan
  | .inf, .inf => .nan
  | .inf, .neginf => .nan
  | .neginf, .inf => .nan
  | .neginf, .neginf => .nan
  | .inf, .fin b => if 0 ≤ b then .inf else .neginf
  | .neginf, .fin b => if 0 ≤ b then .neginf else .inf
  | .fin _, .inf => .fin 0
  | .fin _, .neginf => .fin 0
  | .fin a, .fin b =>
      if b = 0 then (if a = 0 then .nan else if 0 < a then .inf else .neginf)
      else .fin (a / b)

/-- IEEE ordering as a boolean: any comparison with NaN is false. -/
def F32.ble : F32 → F32 → Bool
  | .nan, _ => false
  | _, .nan => false
  | .neginf, _ => true
  | _, .inf => true
  | .inf, _ => false
  | _, .neginf => false
  | .fin a, .fin b => decide (a ≤ b)

/-- IEEE strict ordering as a boolean: any comparison with NaN is false. -/
def F32.blt : F32 → F32 → Bool
  | .nan, _ => false
  | _, .nan => false
  | .inf, _ => false
  | _, .inf => true
  | _, .neginf => false
  | .neginf, _ => true
  | .fin a, .fin b => decide (a < b)

/-- Rust PartialEq on f32: NaN is not equal to anything, including itself. -/
def F32.beq : F32 → F32 → Bool
  | .fin a, .fin b => decide (a = b)
  | .inf, .inf => true
  | .neginf, .neginf => true
  | _, _ => false

/-- Sum of a list of f32 values, folding addition from 0.0 as Rust's
Iterator::sum for f32 does. -/
def f32_sum (l : List F32) : F32 :=
  l.foldl F32.add (.fin 0)

/-- The Progress newtype over f32 (src/progress.rs). -/
structure Progress : Type where
  val : F32
deriving DecidableEq

/-- The nutype sanitizer clamp_finite_0_to_1: clamps finite values to
[0.0, 1.0] via f32::clamp and passes non-finite values through unchanged. -/
def clamp_finite_0_to_1 : F32 → F32
  | .fin q => .fin (if q < 0 then 0 else if 1 < q then 1 else q)
  | v => v

/-- Progress::new: every constructed Progress goes through the sanitizer. -/
def Progress.new (x : F32) : Progress :=
  ⟨clamp_finite_0_to_1 x⟩

/-- Progress::finished: finite and at least 1.0 - f32::EPSILON. -/
def Progress.finished (p : Progress) : Bool :=
  p.val.isFinite && F32.ble (.fin (1 - f32_epsilon)) p.val

/-- Progress::is_finite. -/
def Progress.is_finite (p : Progress) : Bool :=
  p.val.isFinite

/-- Progress::ZERO. -/
def Progress.ZERO : Progress := Progress.new (.fin 0)

/-- Progress::DONE. -/
def Progress.DONE : Progress := Progress.new (.fin 1)

/-- Rust PartialEq on Progress (derived, compares the raw floats). -/
def Progress.beq (a b : Progress) : Bool :=
  F32.beq a.val b.val

/-- ProviderInfo (src/provider.rs): dependency metadata for one provider
system.  Provider systems and progress-checker systems are identified by
numeric handles standing for bevy SystemIds. -/
structure ProviderInfo (K : Type) : Type where
  requires : List K
  provides : List K
  name : String
deriving DecidableEq

/-- SetupTracker (src/tracker.rs).  The entries HashMap and providers
HashMap are modelled as association lists; list order stands for one
possible hash-map iteration order. -/
structure SetupTracker (K : Type) : Type where
  entries : List (K × Nat)
  providers : List (Nat × ProviderInfo K)
  on_finished : Nat
  last_progress : Progress

section TrackerDefs

variable {K : Type} {W : Type}

/-- HashMap::get on the entries map. -/
def lookup_key [DecidableEq K] : List (K × Nat) → K → Option Nat
  | [], _ => none
  | e :: es, k => if e.1 = k then some e.2 else lookup_key es k

/-- HashMap::contains_key on the entries map. -/
def contains_key [DecidableEq K] (es : List (K × Nat)) (k : K) : Bool :=
  (lookup_key es k).isSome

/-- SetupTracker::new. -/
def SetupTracker.new (on_finished : Nat) : SetupTracker K :=
  ⟨[], [], on_finished, Progress.ZERO⟩

/-- The keys of the entries map, in iteration order. -/
def entries_keys (t : SetupTracker K) : List K :=
  t.entries.map Prod.fst

/-- HashMap::insert on the providers map: overwrites any prior entry under
the same handle. -/
def insert_provider (ps : List (Nat × ProviderInfo K)) (sys : Nat)
    (info : ProviderInfo K) : List (Nat × ProviderInfo K) :=
  ps.filter (fun p => p.1 != sys) ++ [(sys, info)]

/-- The key-registration loop of SetupTracker::register_provider for one key
list: each key not already present has its progress checker registered
(regC, modelling K::register_progress_checker against the world W) and is
inserted into entries. -/
def add_keys [DecidableEq K] (regC : W → K → Nat × W) :
    List (K × Nat) → W → List K → List (K × Nat) × W
  | es, w, [] => (es, w)
  | es, w, k :: ks =>
      if contains_key es k then add_keys regC es w ks
      else
        let r := regC w k
        add_keys regC (es ++ [(k, r.1)]) r.2 ks

/-- SetupTracker::register_provider: registers checkers for unseen keys in
requires then provides, then inserts the provider. -/
def register_provider [DecidableEq K] (regC : W → K → Nat × W)
    (t : SetupTracker K) (w : W) (sys : Nat) (info : ProviderInfo K) :
    SetupTracker K × W :=
  let r1 := add_keys regC t.entries w info.requires
  let r2 := add_keys regC r1.1 r1.2 info.provides
  ({ t with entries := r2.1, providers := insert_provider t.providers sys info },
   r2.2)

/-- Folds a sequence of register_provider calls over one tracker. -/
def register_all [DecidableEq K] (regC : W → K → Nat × W) :
    SetupTracker K × W → List (Nat × ProviderInfo K) → SetupTracker K × W
  | s, [] => s
  | s, r :: rs => register_all regC (register_provider regC s.1 s.2 r.1 r.2) rs

/-- An instrumented registration world for observing checker registration:
the state is (next fresh checker id, log of keys whose checker registration
capability has been invoked, in order). -/
def log_reg : Nat × List K → K → Nat × (Nat × List K) :=
  fun w k => (w.1, (w.1 + 1, w.2 ++ [k]))

/-- All keys provided by some provider, with multiplicity, in iteration
order (the order validate pushes them). -/
def provided_keys (t : SetupTracker K) : List K :=
  t.providers.flatMap (fun p => p.2.provides)

/-- The provider handles pushed for a key k by validate's first loop: one
push of the provider system handle per occurrence of k in that provider's
provides list. -/
def providers_of_key [DecidableEq K] (t : SetupTracker K) (k : K) : List Nat :=
  t.providers.flatMap (fun p => (p.2.provides.filter (fun x => x = k)).map (fun _ => p.1))

/-- validate's unprovided set: every entries key not provided by any
provider. -/
def unprovided_set [DecidableEq K] (t : SetupTracker K) : Finset K :=
  ((entries_keys t).filter (fun k => !(decide (k ∈ provided_keys t)))).toFinset

/-- validate's duplicate-providers map after retain(len > 1), as an
association list keyed by the distinct provided keys. -/
def dup_pairs [DecidableEq K] (t : SetupTracker K) : List (K × List Nat) :=
  (provided_keys t).dedup.filterMap (fun k =>
    if 1 < (providers_of_key t k).length then some (k, providers_of_key t k) else none)

/-- The dependency graph detect_cycles builds: key k depends on every key
required by any provider that provides k (with multiplicity, in provider
iteration order). -/
def deps_of [DecidableEq K] (t : SetupTracker K) (k : K) : List K :=
  t.providers.flatMap (fun p =>
    ((p.2.provides.filter (fun x => x = k)).flatMap (fun _ => p.2.requires)))

/-- The DFS state of detect_cycles: the visited set and the accumulated
cyclic-key set.  The recursion stack is passed as an argument. -/
structure DfsState (K : Type) [DecidableEq K] : Type where
  visited : Finset K
  cycles : Finset K

/-- The back-edge marking step of dfs_cycle_detection: every key on the
current recursion stack plus the back-edge target is inserted into the
cycle set. -/
def dfs_mark [DecidableEq K] (st : DfsState K) (stack2 : List K) (d : K) :
    DfsState K :=
  { st with cycles := st.cycles ∪ stack2.toFinset ∪ {d} }

/-- The dependency loop of dfs_cycle_detection: for each dep in order,
recurse when unvisited (via next), mark a cycle when the dep is on the
recursion stack, otherwise skip. -/
def dfs_loop [DecidableEq K] (next : K → List K → DfsState K → DfsState K)
    (stack2 : List K) : List K → DfsState K → DfsState K
  | [], st => st
  | d :: ds, st =>
      dfs_loop next stack2 ds
        (if d ∈ st.visited then
           if d ∈ stack2 then dfs_mark st stack2 d else st
         else next d stack2 st)

/-- dfs_cycle_detection (src/tracker.rs): marks the key visited, pushes it
on the recursion stack, processes its dependencies, then pops.  The fuel
argument bounds the recursion depth; the Rust recursion always terminates
because each nested call is on an unvisited key, and detect_cycles below
supplies fuel strictly larger than the number of reachable keys, so the
fuel-0 branch is never taken there. -/
def dfs_visit [DecidableEq K] (deps : K → List K) :
    Nat → K → List K → DfsState K → DfsState K
  | 0, _, _, st => st
  | fuel+1, k, stack, st =>
      if k ∈ st.visited then st
      else dfs_loop (fun d s2 st2 => dfs_visit deps fuel d s2 st2) (k :: stack)
        (deps k) { st with visited := insert k st.visited }

/-- Every key mentioned anywhere in the tracker; the DFS only ever visits
keys in this list. -/
def key_universe (t : SetupTracker K) : List K :=
  entries_keys t ++ t.providers.flatMap (fun p => p.2.provides ++ p.2.requires)

/-- SetupTracker::detect_cycles: DFS from every entries key in iteration
order. -/
def detect_cycles [DecidableEq K] (t : SetupTracker K) : Finset K :=
  ((entries_keys t).foldl
    (fun st k => dfs_visit (deps_of t) ((key_universe t).length + 1) k [] st)
    ⟨∅, ∅⟩).cycles

/-- InvalidSetupGraph (src/tracker.rs). -/
structure InvalidSetupGraph (K : Type) [DecidableEq K] : Type where
  unprovided : Finset K
  duplicate_providers : List (K × List Nat)
  cyclic_dependencies : Finset K

/-- SetupTracker::validate: fails iff any of the three findings is
nonempty, and the single error carries all three. -/
def validate [DecidableEq K] (t : SetupTracker K) :
    Except (InvalidSetupGraph K) Unit :=
  if unprovided_set t ≠ ∅ ∨ dup_pairs t ≠ [] ∨ detect_cycles t ≠ ∅ then
    Except.error ⟨unprovided_set t, dup_pairs t, detect_cycles t⟩
  else Except.ok ()

/-- One dependency-graph edge: b is a key some provider of a requires. -/
def DepStep (deps : K → List K) (a b : K) : Prop :=
  b ∈ deps a

/-- A key lies on a dependency cycle iff there is a nonempty dependency
path from it back to itself. -/
def OnCycle (deps : K → List K) (k : K) : Prop :=
  Relation.TransGen (DepStep deps) k k

/-- A key from which some cycle member is reachable along dependency
edges. -/
def ReachesCycle (deps : K → List K) (x : K) : Prop :=
  ∃ c, Relation.ReflTransGen (DepStep deps) x c ∧ OnCycle deps c

/-- The recursion stack of the DFS always forms a dependency path: each
element is a dependency of the element below it. -/
def stack_path (deps : K → List K) : List K → Prop
  | [] => True
  | [_] => True
  | a :: b :: rest => a ∈ deps b ∧ stack_path deps (b :: rest)

/-- Soundness invariant of the DFS: every key marked cyclic so far reaches
a cycle. -/
def SInv [DecidableEq K] (deps : K → List K) (st : DfsState K) : Prop :=
  ∀ x ∈ st.cycles, ReachesCycle deps x

/-- Completeness invariant of the DFS: as long as no cycle has been marked,
every fully-processed (visited, off-stack) key is cycle-free. -/
def GoodB [DecidableEq K] (deps : K → List K) (stack : List K)
    (st : DfsState K) : Prop :=
  st.cycles = ∅ → ∀ v ∈ st.visited, v ∉ stack → ¬ OnCycle deps v

/-- Every provider key is present in entries.  This is the invariant of all
trackers built through the public API (register_provider); see the claim on
registration safety. -/
def WellFormed [DecidableEq K] (t : SetupTracker K) : Prop :=
  ∀ p ∈ t.providers,
    (∀ k ∈ p.2.requires, contains_key t.entries k = true) ∧
    (∀ k ∈ p.2.provides, contains_key t.entries k = true)

instance wellFormedDecidable [DecidableEq K] (t : SetupTracker K) :
    Decidable (WellFormed t) :=
  inferInstanceAs (Decidable (∀ p ∈ t.providers,
    (∀ k ∈ p.2.requires, contains_key t.entries k = true) ∧
    (∀ k ∈ p.2.provides, contains_key t.entries k = true)))

/-- SetupTracker::progress denominator: the sum of every entries key's
relative_time_estimate (est models that Key capability). -/
def weight_total (est : K → F32) (t : SetupTracker K) : F32 :=
  f32_sum (t.entries.map (fun e => est e.1))

/-- SetupTracker::progress numerator: the sum over entries of the current
checker value times the key's relative_time_estimate (cv models running a
progress-checker system by handle). -/
def weighted_sum (est : K → F32) (cv : Nat → Progress) (t : SetupTracker K) :
    F32 :=
  f32_sum (t.entries.map (fun e => F32.mul (cv e.2).val (est e.1)))

/-- SetupTracker::progress: Progress::new of numerator over denominator. -/
def SetupTracker.progress (est : K → F32) (cv : Nat → Progress)
    (t : SetupTracker K) : Progress :=
  Progress.new (F32.div (weighted_sum est cv t) (weight_total est t))

/-- One sequential pass of ProviderInfo::should_run over a key list: looks
each key up in entries (none models the panic of the unchecked HashMap
index), runs its checker, and early-returns false when the continue
condition fails. -/
def check_keys [DecidableEq K] (es : List (K × Nat)) (cv : Nat → Progress)
    (cont : Progress → Bool) : List K → Option Bool
  | [] => some true
  | k :: ks =>
      match lookup_key es k with
      | none => none
      | some c => if cont (cv c) then check_keys es cv cont ks else some false

/-- ProviderInfo::should_run (src/provider.rs): no provision finished and
every requirement finished, evaluated by running each key's checker. -/
def ProviderInfo.should_run [DecidableEq K] (info : ProviderInfo K)
    (es : List (K × Nat)) (cv : Nat → Progress) : Option Bool :=
  match check_keys es cv (fun p => !p.finished) info.provides with
  | none => none
  | some false => some false
  | some true => check_keys es cv (fun p => p.finished) info.requires

/-- The per-tick readiness snapshot of advance_setup: the set of entries
keys whose checker currently reports finished. -/
def ready_set [DecidableEq K] (cv : Nat → Progress) (t : SetupTracker K) :
    Finset K :=
  ((t.entries.filter (fun e => (cv e.2).finished)).map Prod.fst).toFinset

/-- The should_run closure of advance_setup: none of the provisions in the
ready snapshot and all of the requirements in it. -/
def should_run_snapshot [DecidableEq K] (ready : Finset K)
    (info : ProviderInfo K) : Bool :=
  info.provides.all (fun p => !(decide (p ∈ ready))) &&
    info.requires.all (fun r => decide (r ∈ ready))

/-- The provider-execution loop of advance_setup: runs every provider whose
should_run closure is true, threading the world.  Per-provider failure only
logs in the source and does not abort the tick, so provider bodies are
modelled as total world transformers. -/
def run_providers [DecidableEq K] (runProv : W → Nat → W) (ready : Finset K)
    (ps : List (Nat × ProviderInfo K)) (w : W) : W :=
  ps.foldl (fun w p => if should_run_snapshot ready p.2 then runProv w p.1 else w) w

/-- advance_setup (src/plugin.rs): snapshot readiness, run eligible
providers, recompute aggregate progress, run the completion callback iff
that progress is finished, and update last_progress when it differs under
float PartialEq.  Returns the final world, the updated tracker, and whether
the completion callback was run this tick. -/
def advance_setup [DecidableEq K] (cv : W → Nat → Progress)
    (runProv : W → Nat → W) (runFin : W → Nat → W) (est : K → F32)
    (t : SetupTracker K) (w : W) : W × SetupTracker K × Bool :=
  let ready := ready_set (cv w) t
  let w1 := run_providers runProv ready t.providers w
  let p := SetupTracker.progress est (cv w1) t
  let w2 := if p.finished then runFin w1 t.on_finished else w1
  let t2 := if Progress.beq t.last_progress p then t else { t with last_progress := p }
  (w2, t2, p.finished)

/-- The wave-eligibility test of SetupTracker::stages: every requirement
already provided. -/
def stage_ready [DecidableEq K] (provided : Finset K) (info : ProviderInfo K) :
    Bool :=
  info.requires.all (fun r => decide (r ∈ provided))

/-- The retain loop of SetupTracker::stages, fuel-bounded.  Returns the
stages plus whether the unresolvable-dependency error branch (empty wave
with providers remaining) was taken; the source logs an error and breaks
there.  stages below supplies fuel larger than the provider count, which
is always sufficient, so the fuel-0 branch is never taken there. -/
def stages_loop [DecidableEq K] :
    Nat → List (Nat × ProviderInfo K) → Finset K → List (List Nat) →
    List (List Nat) × Bool
  | 0, _, _, acc => (acc, false)
  | fuel+1, ps, provided, acc =>
      if ps.isEmpty then (acc, false)
      else if ((ps.filter (fun p => stage_ready provided p.2)).map Prod.fst).isEmpty
        then (acc, true)
      else
        stages_loop fuel (ps.filter (fun p => !stage_ready provided p.2))
          (provided ∪
            ((ps.filter (fun p => stage_ready provided p.2)).flatMap
              (fun p => p.2.provides)).toFinset)
          (acc ++ [(ps.filter (fun p => stage_ready provided p.2)).map Prod.fst])

/-- SetupTracker::stages. -/
def SetupTracker.stages [DecidableEq K] (t : SetupTracker K) :
    List (List Nat) × Bool :=
  stages_loop (t.providers.length + 1) t.providers ∅ []

end TrackerDefs

/-- A small concrete key type used for concrete evaluations of the
engine. -/
inductive TK : Type where
  | a | b | c | d | x
deriving DecidableEq

/-- A tracker whose dependency graph is x -> a -> b -> a: the keys a and b
form a cycle and x merely depends on the cycle; entries iteration order
starts the DFS at x. -/
def cexT : SetupTracker TK :=
  { entries := [(TK.x, 0), (TK.a, 1), (TK.b, 2)],
    providers := [(10, ⟨[TK.a], [TK.x], "px"⟩),
                  (11, ⟨[TK.b], [TK.a], "pa"⟩),
                  (12, ⟨[TK.a], [TK.b], "pb"⟩)],
    on_finished := 0, last_progress := Progress.ZERO }

/-- A tracker with a single provider that lists the same key twice in its
provides list. -/
def dupT : SetupTracker TK :=
  { entries := [(TK.a, 0)],
    providers := [(5, ⟨[], [TK.a, TK.a], "dup"⟩)],
    on_finished := 0, last_progress := Progress.ZERO }

/-- A well-formed tracker with a valid dependency graph. -/
def okT : SetupTracker TK :=
  { entries := [(TK.a, 0), (TK.b, 1)],
    providers := [(7, ⟨[], [TK.a], "pa"⟩), (8, ⟨[TK.a], [TK.b], "pb"⟩)],
    on_finished := 0, last_progress := Progress.ZERO }

/-- Tracker for the concrete weighted-progress evaluation: keys a, b, c
with checker handles 0, 1, 2. -/
def progT : SetupTracker TK :=
  { entries := [(TK.a, 0), (TK.b, 1), (TK.c, 2)],
    providers := [], on_finished := 9, last_progress := Progress.ZERO }

/-- A tracker with no entries. -/
def emptyT : SetupTracker TK :=
  { entries := [], providers := [], on_finished := 0,
    last_progress := Progress.ZERO }

/-- Concrete relative_time_estimate: a and c weigh 1.0, b weighs 2.0. -/
def estC : TK → F32
  | .a => .fin 1
  | .b => .fin 2
  | _ => .fin 1

/-- Concrete checker valuation: handle 0 reports 1.0, handle 1 reports 0.5,
handle 2 reports 0.0. -/
def cvC : Nat → Progress
  | 0 => Progress.new (.fin 1)
  | 1 => Progress.new (.fin (1/2))
  | _ => Progress.new (.fin 0)

/-- Tracker for staging: providers a (nothing -> a), b (a -> b),
c (b -> c), d (nothing -> d). -/
def stagesT : SetupTracker TK :=
  { entries := [(TK.a, 0), (TK.b, 1), (TK.c, 2), (TK.d, 3)],
    providers := [(1, ⟨[], [TK.a], "pa"⟩), (2, ⟨[TK.a], [TK.b], "pb"⟩),
                  (3, ⟨[TK.b], [TK.c], "pc"⟩), (4, ⟨[], [TK.d], "pd"⟩)],
    on_finished := 0, last_progress := Progress.ZERO }

/-- A registration sequence in which key a appears in several providers. -/
def regsW : List (Nat × ProviderInfo TK) :=
  [(1, ⟨[], [TK.a], "pa"⟩), (2, ⟨[TK.a], [TK.b], "pb"⟩),
   (3, ⟨[TK.a], [TK.c], "pc"⟩)]

/-
  Theorems.
-/

section BasicLemmas

variable {K : Type} {W : Type}

/-- Rust float equality implies model equality: beq never equates distinct
model values (NaN compares unequal to itself, so beq true forces equal
non-NaN values). -/
theorem progress_beq_eq {a b : Progress} (h : Progress.beq a b = true) :
    a = b := by
  obtain ⟨va⟩ := a
  obtain ⟨vb⟩ := b
  cases va <;> cases vb <;> simp [Progress.beq, F32.beq] at h ⊢ <;> exact h

end BasicLemmas

/-- C5: for every Progress value, finished() is true iff the underlying
value is finite and at least 1 - epsilon (epsilon = f32 machine epsilon);
new(1.0), new(1.0 - epsilon/2) are finished while new(0.99), new(NaN) and
new(+inf) are not. -/
theorem c5_finished_iff :
    (∀ p : Progress,
        p.finished = true ↔ ∃ q, p.val = F32.fin q ∧ 1 - f32_epsilon ≤ q)
    ∧ (Progress.new (.fin 1)).finished = true
    ∧ (Progress.new (.fin (1 - f32_epsilon / 2))).finished = true
    ∧ (Progress.new (.fin (99 / 100))).finished = false
    ∧ (Progress.new .nan).finished = false
    ∧ (Progress.new .inf).finished = false := by
  refine ⟨?_, ?_, ?_, ?_, ?_, ?_⟩
  · intro p
    obtain ⟨v⟩ := p
    cases v <;> simp [Progress.finished, F32.isFinite, F32.ble]
  · simp [Progress.new, clamp_finite_0_to_1, Progress.finished, F32.isFinite,
      F32.ble, f32_epsilon]
    norm_num
  · simp only [Progress.new, clamp_finite_0_to_1, Progress.finished,
      F32.isFinite, F32.ble, f32_epsilon]
    norm_num
  · simp only [Progress.new, clamp_finite_0_to_1, Progress.finished,
      F32.isFinite, F32.ble, f32_epsilon]
    norm_num
  · simp [Progress.new, clamp_finite_0_to_1, Progress.finished, F32.isFinite]
  · simp [Progress.new, clamp_finite_0_to_1, Progress.finished, F32.isFinite]

/-- C6: Progress::new maps every finite input to exactly that value
clamped into [0,1] (so in particular an in-range input passes through
unchanged and the result, always finite, lies in [0,1]), and passes each
non-finite input through unchanged. -/
theorem c6_new_clamps :
    (∀ q : ℚ, (Progress.new (.fin q)).val = F32.fin (max 0 (min 1 q)))
    ∧ (∀ q : ℚ, 0 ≤ max 0 (min 1 q) ∧ max 0 (min 1 q) ≤ 1)
    ∧ (∀ q : ℚ, 0 ≤ q → q ≤ 1 → (Progress.new (.fin q)).val = F32.fin q)
    ∧ (Progress.new .nan).val = F32.nan
    ∧ (Progress.new .inf).val = F32.inf
    ∧ (Progress.new .neginf).val = F32.neginf := by
  refine ⟨?_, ?_, ?_, rfl, rfl, rfl⟩
  · intro q
    simp only [Progress.new, clamp_finite_0_to_1]
    split_ifs with h1 h2
    · rw [min_eq_right (by linarith : q ≤ (1 : ℚ)), max_eq_left (le_of_lt h1)]
    · rw [min_eq_left (le_of_lt h2), max_eq_right (zero_le_one)]
    · rw [min_eq_right (by linarith : q ≤ (1 : ℚ)),
        max_eq_right (by linarith : (0 : ℚ) ≤ q)]
  · intro q
    exact ⟨le_max_left 0 (min 1 q),
      max_le zero_le_one (le_trans (min_le_left 1 q) le_rfl)⟩
  · intro q h0 h1
    simp only [Progress.new, clamp_finite_0_to_1]
    rw [if_neg (by linarith), if_neg (by linarith)]

/-- Witness for C6: the in-range input 0 passes through Progress::new
unchanged. -/
theorem c6_witness :
    ((0 : ℚ) ≤ 0 ∧ (0 : ℚ) ≤ 1) ∧
      (Progress.new (.fin 0)).val = F32.fin 0 :=
  ⟨⟨le_refl 0, zero_le_one⟩, c6_new_clamps.2.2.1 0 (le_refl 0) zero_le_one⟩

/-- C4: progress() is Progress::new of the weighted sum of checker values
over the weight total; on keys a (progress 1.0, weight 1.0), b (0.5, 2.0),
c (0.0, 1.0) it is exactly 0.5; and with zero entries the 0.0/0.0 division
yields NaN, which is never finished. -/
theorem c4_progress_weighted_mean :
    (∀ (K : Type) (est : K → F32) (cv : Nat → Progress) (t : SetupTracker K),
        t.progress est cv =
          Progress.new (F32.div (weighted_sum est cv t) (weight_total est t)))
    ∧ (SetupTracker.progress estC cvC progT).val = F32.fin (1 / 2)
    ∧ (∀ (K : Type) (est : K → F32) (cv : Nat → Progress) (t : SetupTracker K),
        t.entries = [] →
          (t.progress est cv).val = F32.nan ∧
            (t.progress est cv).finished = false) := by
  refine ⟨fun K est cv t => rfl, ?_, ?_⟩
  · simp only [SetupTracker.progress, weighted_sum, weight_total, progT, estC,
      cvC, f32_sum, Progress.new, clamp_finite_0_to_1, F32.mul, F32.add,
      F32.div, List.map, List.foldl]
    norm_num
  · intro K est cv t h
    have hval : (t.progress est cv).val = F32.nan := by
      simp [SetupTracker.progress, weighted_sum, weight_total, h, f32_sum,
        F32.div, Progress.new, clamp_finite_0_to_1]
    exact ⟨hval, by simp [Progress.finished, hval, F32.isFinite]⟩

/-- C3: against a tick's readiness snapshot, the should_run predicate is
true iff none of the provides keys are ready and all of the requires keys
are ready; hence a provider with a provision already finished does not run,
a provider with an unmet requirement does not run, and a provider with no
requirements runs exactly when none of its provides are finished. -/
theorem c3_should_run_iff :
    (∀ (K : Type) [DecidableEq K] (cv : Nat → Progress) (t : SetupTracker K)
        (info : ProviderInfo K),
        should_run_snapshot (ready_set cv t) info = true ↔
          (∀ p ∈ info.provides, p ∉ ready_set cv t) ∧
            (∀ r ∈ info.requires, r ∈ ready_set cv t))
    ∧ (∀ (K : Type) [DecidableEq K] (ready : Finset K) (info : ProviderInfo K),
        info.provides ≠ [] → (∀ p ∈ info.provides, p ∈ ready) →
          should_run_snapshot ready info = false)
    ∧ (∀ (K : Type) [DecidableEq K] (ready : Finset K) (info : ProviderInfo K)
        (r : K), r ∈ info.requires → r ∉ ready →
          should_run_snapshot ready info = false)
    ∧ (∀ (K : Type) [DecidableEq K] (ready : Finset K) (info : ProviderInfo K),
        info.requires = [] →
          (should_run_snapshot ready info = true ↔
            ∀ p ∈ info.provides, p ∉ ready)) := by
  refine ⟨?_, ?_, ?_, ?_⟩
  · intro K _ cv t info
    simp [should_run_snapshot]
  · intro K _ ready info hne hall
    rcases List.exists_mem_of_ne_nil info.provides hne with ⟨p, hp⟩
    simp only [should_run_snapshot, Bool.and_eq_false_iff]
    left
    exact List.all_eq_false.mpr ⟨p, hp, by simp [hall p hp]⟩
  · intro K _ ready info r hr hnr
    simp only [should_run_snapshot, Bool.and_eq_false_iff]
    right
    exact List.all_eq_false.mpr ⟨r, hr, by simp [hnr]⟩
  · intro K _ ready info hreq
    simp [should_run_snapshot, hreq]

/-- C7: on every invocation of advance_setup, the completion callback is
run iff the aggregate progress recomputed after running the eligible
providers is finished (no already-fired guard consults prior state), and
last_progress is updated to that recomputed value. -/
theorem c7_advance_setup_callback :
    ∀ (K W : Type) [DecidableEq K] (cv : W → Nat → Progress)
      (runProv runFin : W → Nat → W) (est : K → F32) (t : SetupTracker K)
      (w : W),
      (advance_setup cv runProv runFin est t w).2.2 =
        (t.progress est
          (cv (run_providers runProv (ready_set (cv w) t) t.providers w))).finished
      ∧ (advance_setup cv runProv runFin est t w).2.1.last_progress =
          t.progress est
            (cv (run_providers runProv (ready_set (cv w) t) t.providers w))
      ∧ (advance_setup cv runProv runFin est t w).1 =
          (if (t.progress est
                (cv (run_providers runProv (ready_set (cv w) t) t.providers w))).finished
           then runFin (run_providers runProv (ready_set (cv w) t) t.providers w)
                  t.on_finished
           else run_providers runProv (ready_set (cv w) t) t.providers w) := by
  intro K W _ cv runProv runFin est t w
  refine ⟨rfl, ?_, rfl⟩
  show (if Progress.beq t.last_progress _ then t else _).last_progress = _
  by_cases h : Progress.beq t.last_progress
      (t.progress est
        (cv (run_providers runProv (ready_set (cv w) t) t.providers w))) = true
  · rw [if_pos h, progress_beq_eq h]
  · rw [if_neg (by simpa using h)]

/-- Witness for C3: a provider requiring the unready key b does not run. -/
theorem c3_witness :
    (TK.b ∈ (⟨[TK.b], [TK.c], "w2"⟩ : ProviderInfo TK).requires ∧
        TK.b ∉ ({TK.a} : Finset TK)) ∧
      should_run_snapshot ({TK.a} : Finset TK)
          (⟨[TK.b], [TK.c], "w2"⟩ : ProviderInfo TK) = false :=
  ⟨⟨by decide, by decide⟩,
    c3_should_run_iff.2.2.1 TK {TK.a} ⟨[TK.b], [TK.c], "w2"⟩ TK.b (by decide)
      (by decide)⟩

/-- Witness for C4: the zero-entry tracker has NaN progress, never
finished. -/
theorem c4_witness :
    emptyT.entries = [] ∧
      (SetupTracker.progress estC cvC emptyT).val = F32.nan ∧
        (SetupTracker.progress estC cvC emptyT).finished = false :=
  ⟨rfl, c4_progress_weighted_mean.2.2 TK estC cvC emptyT rfl⟩

section DfsSound

variable {K : Type} [DecidableEq K] {deps : K → List K}

/-- Every key on a stack that forms a dependency path reaches the stack
head along dependency edges. -/
theorem stack_path_reaches :
    ∀ (l : List K) (a : K), stack_path deps (a :: l) →
      ∀ x ∈ a :: l, Relation.ReflTransGen (DepStep deps) x a := by
  intro l
  induction l with
  | nil =>
      intro a _ x hx
      rcases List.mem_singleton.mp hx with rfl
      exact Relation.ReflTransGen.refl
  | cons b rest ih =>
      intro a hp x hx
      obtain ⟨hab, hrest⟩ := hp
      rcases List.mem_cons.mp hx with rfl | hx2
      · exact Relation.ReflTransGen.refl
      · exact Relation.ReflTransGen.tail (ih b hrest x hx2) hab

/-- Marking a back edge preserves the soundness invariant: the back-edge
target is on a cycle and every stacked key reaches it. -/
theorem sinv_mark {st : DfsState K} {k d : K} {stack : List K}
    (hst : SInv deps st) (hs : stack_path deps (k :: stack))
    (hd : DepStep deps k d) (hmem : d ∈ k :: stack) :
    SInv deps (dfs_mark st (k :: stack) d) := by
  have hdk : Relation.ReflTransGen (DepStep deps) d k :=
    stack_path_reaches stack k hs d hmem
  have hcyc : OnCycle deps d := Relation.TransGen.tail' hdk hd
  intro x hx
  simp only [dfs_mark, Finset.mem_union, Finset.mem_singleton,
    List.mem_toFinset] at hx
  rcases hx with (hx | hx) | hx
  · exact hst x hx
  · exact ⟨d, Relation.ReflTransGen.tail (stack_path_reaches stack k hs x hx) hd,
      hcyc⟩
  · exact hx ▸ ⟨d, Relation.ReflTransGen.refl, hcyc⟩

/-- The dependency loop preserves the soundness invariant, provided the
recursive step does. -/
theorem sinv_loop {next : K → List K → DfsState K → DfsState K}
    (hnext : ∀ d s2 s, stack_path deps (d :: s2) → SInv deps s →
      SInv deps (next d s2 s))
    (k : K) (stack : List K) (hs : stack_path deps (k :: stack)) :
    ∀ (ds : List K) (st : DfsState K), (∀ d ∈ ds, DepStep deps k d) →
      SInv deps st → SInv deps (dfs_loop next (k :: stack) ds st) := by
  intro ds
  induction ds with
  | nil => intro st _ hst; simpa [dfs_loop] using hst
  | cons d ds ih =>
      intro st hds hst
      rw [dfs_loop]
      refine ih _ (fun e he => hds e (List.mem_cons_of_mem d he)) ?_
      by_cases hv : d ∈ st.visited
      · by_cases hm : d ∈ k :: stack
        · simpa [hv, hm] using
            sinv_mark hst hs (hds d (List.mem_cons_self d ds)) hm
        · simpa [hv, hm] using hst
      · simpa [hv] using hnext d (k :: stack) st ⟨hds d (List.mem_cons_self d ds), hs⟩ hst

/-- The DFS preserves the soundness invariant: it only ever marks keys that
reach a cycle. -/
theorem sinv_visit (fuel : Nat) :
    ∀ (k : K) (stack : List K) (st : DfsState K),
      stack_path deps (k :: stack) → SInv deps st →
      SInv deps (dfs_visit deps fuel k stack st) := by
  induction fuel with
  | zero => intro k stack st _ hst; simpa [dfs_visit] using hst
  | succ n ih =>
      intro k stack st hp hst
      rw [dfs_visit]
      by_cases hv : k ∈ st.visited
      · simpa [hv] using hst
      · simp only [hv, if_false]
        exact sinv_loop (fun d s2 s hp2 hs2 => ih d s2 s hp2 hs2) k stack hp
          (deps k) _ (fun d hd => hd) hst

/-- Soundness of detect_cycles: every key in the returned set reaches a
dependency cycle (in particular, a nonempty result implies the graph has a
cycle). -/
theorem detect_cycles_sound (t : SetupTracker K) :
    ∀ x ∈ detect_cycles t, ReachesCycle (deps_of t) x := by
  have main :
      ∀ (roots : List K) (st : DfsState K), SInv (deps_of t) st →
        SInv (deps_of t)
          (roots.foldl
            (fun st k =>
              dfs_visit (deps_of t) ((key_universe t).length + 1) k [] st) st) := by
    intro roots
    induction roots with
    | nil => intro st hst; simpa using hst
    | cons r rs ih =>
        intro st hst
        exact ih _ (sinv_visit _ r [] st trivial hst)
  intro x hx
  exact main (entries_keys t) ⟨∅, ∅⟩ (fun y hy => absurd hy (Finset.not_mem_empty y)) x hx

end DfsSound

section ReachLemmas

variable {K : Type} {deps : K → List K}

/-- Reachability stays inside any set closed under dependency edges. -/
theorem reach_in_closed [DecidableEq K] (S : Finset K)
    (hcl : ∀ v ∈ S, ∀ d ∈ deps v, d ∈ S) {a y : K} (ha : a ∈ S)
    (h : Relation.ReflTransGen (DepStep deps) a y) : y ∈ S := by
  induction h with
  | refl => exact ha
  | tail hab hbc ih => exact hcl _ ih _ hbc

end ReachLemmas

section DfsComplete

variable {K : Type} [DecidableEq K] {deps : K → List K}

/-- Completeness workhorse: with enough fuel, the DFS visits its argument
and everything it newly visits stays inside the key universe, and it
preserves the invariant that (absent any marking) fully-processed keys are
cycle-free.  The heart is the pop step: when a key comes off the stack with
no marking, each of its dependencies has been processed off-stack, so a
cycle through the key would contradict the invariant at that dependency. -/
theorem visit_complete (U : Finset K)
    (hdeps : ∀ x : K, ∀ y ∈ deps x, y ∈ U) :
    ∀ fuel : Nat, ∀ (k : K) (stack : List K) (st : DfsState K),
      k ∈ U → (∀ x ∈ stack, x ∈ st.visited) →
      (U \ st.visited).card < fuel → GoodB deps stack st →
      st.visited ⊆ (dfs_visit deps fuel k stack st).visited ∧
        k ∈ (dfs_visit deps fuel k stack st).visited ∧
        (dfs_visit deps fuel k stack st).visited ⊆ st.visited ∪ U ∧
        st.cycles ⊆ (dfs_visit deps fuel k stack st).cycles ∧
        GoodB deps stack (dfs_visit deps fuel k stack st) := by
  intro fuel
  induction fuel with
  | zero =>
      intro k stack st _ _ hcard _
      exact absurd hcard (Nat.not_lt_zero _)
  | succ n ih =>
      intro k stack st hkU hstack hcard hgood
      rw [dfs_visit]
      by_cases hv : k ∈ st.visited
      · simp only [hv, if_true]
        exact ⟨subset_rfl, by simp [hv], Finset.subset_union_left, subset_rfl,
          hgood⟩
      · simp only [hv, if_false]
        have hcard1 :
            (U \ (insert k st.visited : Finset K)).card < n := by
          have hkin : k ∈ U \ st.visited := Finset.mem_sdiff.mpr ⟨hkU, hv⟩
          have hsub : U \ insert k st.visited ⊆ (U \ st.visited).erase k := by
            intro x hx
            simp only [Finset.mem_sdiff, Finset.mem_insert, Finset.mem_erase,
              not_or] at hx ⊢
            tauto
          have h1 : (U \ insert k st.visited).card < (U \ st.visited).card :=
            lt_of_le_of_lt (Finset.card_le_card hsub)
              (Finset.card_erase_lt_of_mem hkin)
          exact lt_of_lt_of_le h1 (Nat.lt_succ_iff.mp hcard)
        have hgood1 :
            GoodB deps (k :: stack) ({ st with visited := insert k st.visited }) := by
          intro hc v hvmem hvstack
          rcases Finset.mem_insert.mp hvmem with rfl | hvmem2
          · exact absurd (List.mem_cons_self v stack) hvstack
          · exact hgood hc v hvmem2 (fun hx => hvstack (List.mem_cons_of_mem k hx))
        have hstack1 :
            ∀ x ∈ k :: stack, x ∈ ({ st with visited := insert k st.visited } : DfsState K).visited := by
          intro x hx
          rcases List.mem_cons.mp hx with rfl | hx2
          · exact Finset.mem_insert_self x st.visited
          · exact Finset.mem_insert_of_mem (hstack x hx2)
        have loop :
            ∀ (ds : List K) (s : DfsState K), (∀ d ∈ ds, d ∈ deps k) →
              (∀ x ∈ k :: stack, x ∈ s.visited) → (U \ s.visited).card < n →
              GoodB deps (k :: stack) s →
              s.visited ⊆
                  (dfs_loop (fun d s2 st2 => dfs_visit deps n d s2 st2)
                    (k :: stack) ds s).visited ∧
                (dfs_loop (fun d s2 st2 => dfs_visit deps n d s2 st2)
                    (k :: stack) ds s).visited ⊆ s.visited ∪ U ∧
                s.cycles ⊆
                  (dfs_loop (fun d s2 st2 => dfs_visit deps n d s2 st2)
                    (k :: stack) ds s).cycles ∧
                GoodB deps (k :: stack)
                  (dfs_loop (fun d s2 st2 => dfs_visit deps n d s2 st2)
                    (k :: stack) ds s) ∧
                ∀ d ∈ ds,
                  d ∈ (dfs_loop (fun d s2 st2 => dfs_visit deps n d s2 st2)
                        (k :: stack) ds s).visited ∧
                  ((dfs_loop (fun d s2 st2 => dfs_visit deps n d s2 st2)
                        (k :: stack) ds s).cycles = ∅ → d ∉ k :: stack) := by
          intro ds
          induction ds with
          | nil =>
              intro s _ _ _ hg
              simp only [dfs_loop]
              exact ⟨subset_rfl, Finset.subset_union_left, subset_rfl, hg,
                fun d hd => absurd hd (List.not_mem_nil d)⟩
          | cons d ds ihd =>
              intro s hds hstk hcd hg
              rw [dfs_loop]
              have hdk : d ∈ deps k := hds d (List.mem_cons_self d ds)
              have hds2 : ∀ e ∈ ds, e ∈ deps k :=
                fun e he => hds e (List.mem_cons_of_mem d he)
              by_cases hvd : d ∈ s.visited
              · by_cases hmd : d ∈ k :: stack
                · -- back edge: mark the whole stack plus d
                  simp only [hvd, hmd, if_true]
                  have hkc : k ∈ (dfs_mark s (k :: stack) d).cycles := by
                    simp [dfs_mark]
                  have hgm : GoodB deps (k :: stack) (dfs_mark s (k :: stack) d) := by
                    intro hc
                    rw [hc] at hkc
                    exact absurd hkc (Finset.not_mem_empty k)
                  obtain ⟨m1, m2, m3, m4, m5⟩ :=
                    ihd (dfs_mark s (k :: stack) d) hds2 hstk hcd hgm
                  have hkfin :
                      k ∈ (dfs_loop (fun d s2 st2 => dfs_visit deps n d s2 st2)
                        (k :: stack) ds (dfs_mark s (k :: stack) d)).cycles :=
                    m3 hkc
                  refine ⟨m1, m2, ?_, m4, ?_⟩
                  · exact fun x hx => m3 (by simp [dfs_mark, hx])
                  · intro e he
                    rcases List.mem_cons.mp he with rfl | he2
                    · refine ⟨m1 hvd, fun hc => ?_⟩
                      rw [hc] at hkfin
                      exact absurd hkfin (Finset.not_mem_empty k)
                    · exact m5 e he2
                · -- dep already fully processed: skip
                  simp only [hvd, hmd, if_true, if_false]
                  obtain ⟨m1, m2, m3, m4, m5⟩ := ihd s hds2 hstk hcd hg
                  refine ⟨m1, m2, m3, m4, ?_⟩
                  intro e he
                  rcases List.mem_cons.mp he with rfl | he2
                  · exact ⟨m1 hvd, fun _ => hmd⟩
                  · exact m5 e he2
              · -- unvisited dep: recurse
                simp only [hvd, if_false]
                obtain ⟨r1, r2, r3, r4, r5⟩ :=
                  ih d (k :: stack) s (hdeps k d hdk) hstk hcd hg
                have hcd2 :
                    (U \ (dfs_visit deps n d (k :: stack) s).visited).card < n :=
                  lt_of_le_of_lt
                    (Finset.card_le_card (Finset.sdiff_subset_sdiff subset_rfl r1))
                    hcd
                have hstk2 :
                    ∀ x ∈ k :: stack,
                      x ∈ (dfs_visit deps n d (k :: stack) s).visited :=
                  fun x hx => r1 (hstk x hx)
                obtain ⟨m1, m2, m3, m4, m5⟩ :=
                  ihd (dfs_visit deps n d (k :: stack) s) hds2 hstk2 hcd2 r5
                refine ⟨fun x hx => m1 (r1 hx), ?_, fun x hx => m3 (r4 hx), m4, ?_⟩
                · intro x hx
                  rcases Finset.mem_union.mp (m2 hx) with hx2 | hx2
                  · rcases Finset.mem_union.mp (r3 hx2) with hx3 | hx3
                    · exact Finset.mem_union_left _ hx3
                    · exact Finset.mem_union_right _ hx3
                  · exact Finset.mem_union_right _ hx2
                · intro e he
                  rcases List.mem_cons.mp he with rfl | he2
                  · exact ⟨m1 r2, fun _ hmem => hvd (hstk e hmem)⟩
                  · exact m5 e he2
        obtain ⟨l1, l2, l3, l4, l5⟩ :=
          loop (deps k) ({ st with visited := insert k st.visited })
            (fun d hd => hd) hstack1 hcard1 hgood1
        refine ⟨?_, ?_, ?_, l3, ?_⟩
        · exact fun x hx => l1 (Finset.mem_insert_of_mem hx)
        · exact l1 (Finset.mem_insert_self k st.visited)
        · intro x hx
          rcases Finset.mem_union.mp (l2 hx) with hx2 | hx2
          · rcases Finset.mem_insert.mp hx2 with rfl | hx3
            · exact Finset.mem_union_right _ hkU
            · exact Finset.mem_union_left _ hx3
          · exact Finset.mem_union_right _ hx2
        · -- pop step
          intro hfc v hvfin hvstack
          by_cases hveq : v = k
          · subst hveq
            intro honc
            rcases Relation.TransGen.head'_iff.mp honc with ⟨b, hvb, hbv⟩
            obtain ⟨hbfin, hbstack⟩ := l5 b hvb
            have hbnot : b ∉ v :: stack := hbstack hfc
            exact l4 hfc b hbfin hbnot (Relation.TransGen.tail' hbv hvb)
          · exact l4 hfc v hvfin
              (fun hmem => (List.mem_cons.mp hmem).elim hveq hvstack)

/-- The DFS driver loop visits every root and preserves the completeness
invariant. -/
theorem fold_complete (U : Finset K)
    (hdeps : ∀ x : K, ∀ y ∈ deps x, y ∈ U) (F : Nat) :
    ∀ (roots : List K) (st : DfsState K), (∀ r ∈ roots, r ∈ U) →
      (U \ st.visited).card < F → GoodB deps [] st →
      (∀ r ∈ roots,
          r ∈ (roots.foldl (fun st k => dfs_visit deps F k [] st) st).visited) ∧
        GoodB deps [] (roots.foldl (fun st k => dfs_visit deps F k [] st) st) ∧
        st.visited ⊆
          (roots.foldl (fun st k => dfs_visit deps F k [] st) st).visited := by
  intro roots
  induction roots with
  | nil =>
      intro st _ _ hg
      exact ⟨fun r hr => absurd hr (List.not_mem_nil r), hg, subset_rfl⟩
  | cons r rs ih =>
      intro st hroots hcard hg
      obtain ⟨v1, v2, _, _, v5⟩ :=
        visit_complete U hdeps F r [] st (hroots r (List.mem_cons_self r rs))
          (fun x hx => absurd hx (List.not_mem_nil x)) hcard hg
      have hcard2 :
          (U \ (dfs_visit deps F r [] st).visited).card < F :=
        lt_of_le_of_lt
          (Finset.card_le_card (Finset.sdiff_subset_sdiff subset_rfl v1)) hcard
      obtain ⟨f1, f2, f3⟩ := ih (dfs_visit deps F r [] st)
        (fun x hx => hroots x (List.mem_cons_of_mem r hx)) hcard2 v5
      refine ⟨?_, f2, fun x hx => f3 (v1 hx)⟩
      intro x hx
      rcases List.mem_cons.mp hx with rfl | hx2
      · exact f3 v2
      · exact f1 x hx2

end DfsComplete

section TrackerGraphLemmas

variable {K : Type} [DecidableEq K]

/-- contains_key tests membership among the entry keys. -/
theorem contains_key_iff_mem (es : List (K × Nat)) (k : K) :
    contains_key es k = true ↔ k ∈ es.map Prod.fst := by
  induction es with
  | nil => simp [contains_key, lookup_key]
  | cons e es ih =>
      by_cases h : e.1 = k
      · simp [contains_key, lookup_key, h]
      · simpa [contains_key, lookup_key, h, Ne.symm h] using ih

/-- Every dependency edge of the cycle-detection graph comes from a
provider that provides the source key and requires the target key. -/
theorem deps_to_requires {t : SetupTracker K} {k b : K}
    (h : b ∈ deps_of t k) :
    ∃ p ∈ t.providers, b ∈ p.2.requires ∧ k ∈ p.2.provides := by
  rw [deps_of] at h
  rcases List.mem_flatMap.mp h with ⟨p, hp, hb⟩
  rcases List.mem_flatMap.mp hb with ⟨x, hx, hb2⟩
  rcases List.mem_filter.mp hx with ⟨hxp, hxk⟩
  refine ⟨p, hp, hb2, ?_⟩
  rwa [show x = k from by simpa using hxk] at hxp

/-- Dependency edges stay inside the key universe. -/
theorem deps_in_universe (t : SetupTracker K) :
    ∀ x : K, ∀ y ∈ deps_of t x, y ∈ (key_universe t).toFinset := by
  intro x y hy
  rcases deps_to_requires hy with ⟨p, hp, hreq, _⟩
  rw [List.mem_toFinset, key_universe]
  exact List.mem_append_right _
    (List.mem_flatMap.mpr ⟨p, hp, List.mem_append_right _ hreq⟩)

/-- Entry keys are in the key universe. -/
theorem entries_in_universe (t : SetupTracker K) :
    ∀ r ∈ entries_keys t, r ∈ (key_universe t).toFinset := by
  intro r hr
  rw [List.mem_toFinset, key_universe]
  exact List.mem_append_left _ hr

/-- Completeness of detect_cycles on well-formed trackers: an empty result
means the dependency graph is acyclic. -/
theorem detect_cycles_complete (t : SetupTracker K) (hwf : WellFormed t)
    (hdc : detect_cycles t = ∅) : ∀ k, ¬ OnCycle (deps_of t) k := by
  intro k honc
  rcases Relation.TransGen.head'_iff.mp honc with ⟨b, hkb, _⟩
  rcases deps_to_requires hkb with ⟨p, hp, _, hkprov⟩
  have hkentry : k ∈ entries_keys t := by
    rw [entries_keys, ← contains_key_iff_mem]
    exact (hwf p hp).2 k hkprov
  have hcard :
      ((key_universe t).toFinset \ (⟨∅, ∅⟩ : DfsState K).visited).card <
        (key_universe t).length + 1 := by
    simpa using Nat.lt_succ_of_le (List.toFinset_card_le (key_universe t))
  obtain ⟨f1, f2, _⟩ :=
    fold_complete (key_universe t).toFinset (deps_in_universe t)
      ((key_universe t).length + 1) (entries_keys t) ⟨∅, ∅⟩
      (entries_in_universe t) hcard
      (fun _ v hv _ => absurd hv (Finset.not_mem_empty v))
  exact f2 hdc k (f1 k hkentry) (List.not_mem_nil k) honc

end TrackerGraphLemmas

section ValidateLemmas

variable {K : Type} [DecidableEq K]

/-- The unprovided set is empty iff every entries key is provided. -/
theorem unprovided_empty_iff (t : SetupTracker K) :
    unprovided_set t = ∅ ↔ ∀ k ∈ entries_keys t, k ∈ provided_keys t := by
  rw [unprovided_set, List.toFinset_eq_empty_iff, List.filter_eq_nil_iff]
  simp

/-- Membership in the pushed provider-handle list for a key. -/
theorem mem_providers_of_key {t : SetupTracker K} {k : K} {s : Nat} :
    s ∈ providers_of_key t k ↔
      ∃ p ∈ t.providers, k ∈ p.2.provides ∧ p.1 = s := by
  simp only [providers_of_key, List.mem_flatMap, List.mem_map, List.mem_filter,
    decide_eq_true_eq]
  constructor
  · rintro ⟨p, hp, x, ⟨hxp, rfl⟩, rfl⟩
    exact ⟨p, hp, hxp, rfl⟩
  · rintro ⟨p, hp, hk, rfl⟩
    exact ⟨p, hp, k, ⟨hk, rfl⟩, rfl⟩

/-- A key provided by no provider has an empty pushed handle list. -/
theorem providers_of_key_nil {t : SetupTracker K} {k : K}
    (h : k ∉ provided_keys t) : providers_of_key t k = [] := by
  rw [List.eq_nil_iff_forall_not_mem]
  intro s hs
  rcases mem_providers_of_key.mp hs with ⟨p, hp, hk, _⟩
  exact h (List.mem_flatMap.mpr ⟨p, hp, hk⟩)

/-- The retained duplicate map is empty iff no key is pushed two or more
provider handles (counting one handle per provision occurrence). -/
theorem dup_nil_iff (t : SetupTracker K) :
    dup_pairs t = [] ↔ ∀ k : K, (providers_of_key t k).length ≤ 1 := by
  rw [dup_pairs, List.filterMap_eq_nil_iff]
  constructor
  · intro h k
    by_cases hk : k ∈ provided_keys t
    · have h2 := h k (List.mem_dedup.mpr hk)
      by_contra hlen
      push_neg at hlen
      simp [hlen] at h2
    · rw [providers_of_key_nil hk]
      simp
  · intro h k _
    simp [Nat.not_lt.mpr (h k)]

/-- validate succeeds iff all three computed findings are empty. -/
theorem validate_ok_iff (t : SetupTracker K) :
    validate t = Except.ok () ↔
      unprovided_set t = ∅ ∧ dup_pairs t = [] ∧ detect_cycles t = ∅ := by
  rw [validate]
  split_ifs with h
  · constructor
    · intro h2
      exact absurd h2 (by simp)
    · intro h2
      rcases h with h | h | h
      · exact absurd h2.1 h
      · exact absurd h2.2.1 h
      · exact absurd h2.2.2 h
  · push_neg at h
    exact ⟨fun _ => ⟨h.1, h.2.1, h.2.2⟩, fun _ => rfl⟩

/-- When validate fails, the single error carries all three findings. -/
theorem validate_error_content (t : SetupTracker K) :
    ∀ e, validate t = Except.error e →
      e.unprovided = unprovided_set t ∧
        e.duplicate_providers = dup_pairs t ∧
        e.cyclic_dependencies = detect_cycles t := by
  intro e he
  rw [validate] at he
  split_ifs at he with h
  have he2 : e = ⟨unprovided_set t, dup_pairs t, detect_cycles t⟩ := by
    have h3 := he
    simp only [Except.error.injEq] at h3
    exact h3.symm
  subst he2
  exact ⟨rfl, rfl, rfl⟩

/-- On well-formed trackers the cycle-detection result is empty iff the key
dependency graph is acyclic. -/
theorem cycles_empty_iff (t : SetupTracker K) (hwf : WellFormed t) :
    detect_cycles t = ∅ ↔ ∀ k, ¬ OnCycle (deps_of t) k := by
  constructor
  · exact detect_cycles_complete t hwf
  · intro h
    by_contra hne
    rcases Finset.nonempty_iff_ne_empty.mpr hne with ⟨x, hx⟩
    rcases detect_cycles_sound t x hx with ⟨c, _, hc⟩
    exact h c hc

end ValidateLemmas

/-- C2 counterexample: the tracker with one provider whose provides list
names key a twice fails validation even though no key is provided by two
or more distinct providers, no entries key is unprovided, and the graph is
acyclic.  validate counts provision occurrences, not distinct providers. -/
theorem c2_counterexample :
    validate dupT ≠ Except.ok () ∧
      (¬ ∃ p1 ∈ dupT.providers, ∃ p2 ∈ dupT.providers,
          p1.1 ≠ p2.1 ∧ ∃ k ∈ p1.2.provides, k ∈ p2.2.provides) ∧
      (∀ k ∈ entries_keys dupT, k ∈ provided_keys dupT) ∧
      (∀ k, ¬ OnCycle (deps_of dupT) k) := by
  refine ⟨?_, by decide, by decide, ?_⟩
  · intro h
    exact absurd ((validate_ok_iff dupT).mp h).2.1 (by decide)
  · intro k h
    rcases Relation.TransGen.head'_iff.mp h with ⟨b, hb, _⟩
    have hnil : deps_of dupT k = [] := by cases k <;> decide
    rw [DepStep, hnil] at hb
    exact absurd hb (List.not_mem_nil b)

/-- C2 amended: for every tracker built through the public API (so that
every provider key has an entry), validate returns Ok iff every entries
key is provided, no key has two or more provision occurrences across all
providers (a single provider listing a key twice counts as a duplicate),
and no key participates in a dependency cycle; and the single returned
error carries all three computed findings (the unprovided key set, the
occurrence-based duplicate map, and the cycle-detection key set). -/
theorem c2_amended_validate_iff :
    ∀ (K : Type) [DecidableEq K] (t : SetupTracker K), WellFormed t →
      (validate t = Except.ok () ↔
        (∀ k ∈ entries_keys t, k ∈ provided_keys t) ∧
          (∀ k, (providers_of_key t k).length ≤ 1) ∧
          (∀ k, ¬ OnCycle (deps_of t) k))
      ∧ ∀ e, validate t = Except.error e →
          e.unprovided = unprovided_set t ∧
            e.duplicate_providers = dup_pairs t ∧
            e.cyclic_dependencies = detect_cycles t := by
  intro K _ t hwf
  refine ⟨?_, validate_error_content t⟩
  rw [validate_ok_iff, unprovided_empty_iff, dup_nil_iff,
    cycles_empty_iff t hwf]

/-- Witness for the C2 amended theorem: a concrete well-formed valid
tracker on which validation succeeds, with the three conditions following
from the theorem. -/
theorem c2_witness :
    WellFormed okT ∧
      ((∀ k ∈ entries_keys okT, k ∈ provided_keys okT) ∧
        (∀ k, (providers_of_key okT k).length ≤ 1) ∧
        (∀ k, ¬ OnCycle (deps_of okT) k)) :=
  ⟨by decide,
    ((c2_amended_validate_iff TK okT (by decide)).1).mp
      ((validate_ok_iff okT).mpr ⟨by decide, by decide, by decide⟩)⟩

/-- C1 counterexample: on the tracker whose graph is x -> a -> b -> a with
DFS starting at x, the key x is returned by detect_cycles even though x
lies on no dependency cycle (it only depends on the a-b cycle). -/
theorem c1_counterexample :
    TK.x ∈ detect_cycles cexT ∧ ¬ OnCycle (deps_of cexT) TK.x := by
  refine ⟨by decide, ?_⟩
  intro h
  rcases Relation.TransGen.head'_iff.mp h with ⟨b, hb, hbx⟩
  have hdeps : deps_of cexT TK.x = [TK.a] := by decide
  have hba : b = TK.a := by
    have := hb
    rw [DepStep, hdeps] at this
    simpa using this
  subst hba
  have hmem : TK.x ∈ ({TK.a, TK.b} : Finset TK) :=
    reach_in_closed {TK.a, TK.b} (by decide) (by decide) hbx
  simp at hmem

/-- C1 amended: every key returned by detect_cycles reaches a dependency
cycle (so the result is empty on acyclic graphs), but the result is not
exactly the set of cycle members: keys on the DFS path leading into a cycle
can be included, and cycle members can be missed. -/
theorem c1_amended_marked_reaches_cycle :
    ∀ (K : Type) [DecidableEq K] (t : SetupTracker K) (k : K),
      k ∈ detect_cycles t → ReachesCycle (deps_of t) k := by
  intro K _ t k hk
  exact detect_cycles_sound t k hk

/-- Witness for the C1 amended theorem at the concrete tracker. -/
theorem c1_witness :
    TK.x ∈ detect_cycles cexT ∧ ReachesCycle (deps_of cexT) TK.x :=
  ⟨by decide, c1_amended_marked_reaches_cycle TK cexT TK.x (by decide)⟩

section StagesLemmas

variable {K : Type} [DecidableEq K]

/-- Removing a nonempty filtered part strictly shrinks a list. -/
theorem filter_not_length_lt {α : Type} (p : α → Bool) (l : List α)
    (h : l.filter p ≠ []) :
    (l.filter (fun x => !p x)).length < l.length := by
  induction l with
  | nil => simp at h
  | cons a l ih =>
      by_cases hpa : p a = true
      · have hle : (l.filter (fun x => !p x)).length ≤ l.length :=
          List.length_filter_le _ l
        simp [List.filter_cons, hpa]
        omega
      · have hpa2 : p a = false := by simpa using hpa
        have h2 : l.filter p ≠ [] := by
          simpa [List.filter_cons, hpa2] using h
        have := ih h2
        simp [List.filter_cons, hpa2]
        omega

/-- The stages loop is fuel-insensitive once the fuel exceeds the number of
remaining providers: the iteration terminates. -/
theorem stages_loop_stable :
    ∀ (f1 f2 : Nat) (ps : List (Nat × ProviderInfo K)) (provided : Finset K)
      (acc : List (List Nat)), ps.length < f1 → ps.length < f2 →
      stages_loop f1 ps provided acc = stages_loop f2 ps provided acc := by
  intro f1
  induction f1 with
  | zero => intro f2 ps _ _ h1 _; exact absurd h1 (Nat.not_lt_zero _)
  | succ n ih =>
      intro f2 ps provided acc h1 h2
      cases f2 with
      | zero => exact absurd h2 (Nat.not_lt_zero _)
      | succ m =>
          rw [stages_loop, stages_loop]
          by_cases hemp : ps.isEmpty = true
          · simp [hemp]
          · have hemp2 : ps.isEmpty = false := by simpa using hemp
            simp only [hemp2, Bool.false_eq_true, if_false]
            by_cases hstage :
                ((ps.filter (fun p => stage_ready provided p.2)).map Prod.fst).isEmpty = true
            · simp [hstage]
            · have hstage2 := Bool.not_eq_true _ |>.mp hstage
              simp only [hstage2, Bool.false_eq_true, if_false]
              have hne : ps.filter (fun p => stage_ready provided p.2) ≠ [] := by
                intro hc
                simp [hc] at hstage2
              have hlt := filter_not_length_lt (fun p => stage_ready provided p.2) ps hne
              exact ih m _ _ _ (lt_of_lt_of_le hlt (Nat.lt_succ_iff.mp h1))
                (lt_of_lt_of_le hlt (Nat.lt_succ_iff.mp h2))

/-- Behaviour of the stages loop: it always returns the accumulator
extended by the new waves; the error flag is false exactly when every
remaining provider was placed into some wave, and true exactly when an
empty wave was scanned while providers remained, in which case those
providers are missing from the result. -/
theorem stages_loop_spec :
    ∀ (fuel : Nat) (ps : List (Nat × ProviderInfo K)) (provided : Finset K)
      (acc : List (List Nat)), ps.length < fuel → (ps.map Prod.fst).Nodup →
      ∃ rest flag, stages_loop fuel ps provided acc = (acc ++ rest, flag) ∧
        (∀ s ∈ rest.flatten, s ∈ ps.map Prod.fst) ∧
        (flag = false → ∀ s ∈ ps.map Prod.fst, s ∈ rest.flatten) ∧
        (flag = true → ∃ s ∈ ps.map Prod.fst, s ∉ rest.flatten) := by
  intro fuel
  induction fuel with
  | zero => intro ps _ _ h1 _; exact absurd h1 (Nat.not_lt_zero _)
  | succ n ih =>
      intro ps provided acc h1 hnd
      rw [stages_loop]
      by_cases hemp : ps.isEmpty = true
      · have hps : ps = [] := List.isEmpty_iff.mp hemp
        subst hps
        exact ⟨[], false, by simp [hemp], by simp, by simp, by simp⟩
      · have hemp2 : ps.isEmpty = false := by simpa using hemp
        have hpsne : ps ≠ [] := by
          intro hc; rw [hc] at hemp2; simp at hemp2
        simp only [hemp2, Bool.false_eq_true, if_false]
        by_cases hstage :
            ((ps.filter (fun p => stage_ready provided p.2)).map Prod.fst).isEmpty = true
        · simp only [hstage, if_true]
          obtain ⟨p0, hp0⟩ := List.exists_mem_of_ne_nil ps hpsne
          exact ⟨[], true, by simp, by simp, by simp,
            fun _ => ⟨p0.1, List.mem_map_of_mem Prod.fst hp0, by simp⟩⟩
        · have hstage2 : ((ps.filter (fun p => stage_ready provided p.2)).map Prod.fst).isEmpty = false := by
            simpa using hstage
          simp only [hstage2, Bool.false_eq_true, if_false]
          have hne : ps.filter (fun p => stage_ready provided p.2) ≠ [] := by
            intro hc; simp [hc] at hstage2
          have hlt := filter_not_length_lt (fun p => stage_ready provided p.2) ps hne
          have hnd2 :
              ((ps.filter (fun p => !stage_ready provided p.2)).map Prod.fst).Nodup :=
            List.Nodup.sublist (List.Sublist.map Prod.fst (List.filter_sublist ps)) hnd
          obtain ⟨rest1, flag1, heq, hsub, hfalse, htrue⟩ :=
            ih (ps.filter (fun p => !stage_ready provided p.2))
              (provided ∪
                ((ps.filter (fun p => stage_ready provided p.2)).flatMap
                  (fun p => p.2.provides)).toFinset)
              (acc ++ [(ps.filter (fun p => stage_ready provided p.2)).map Prod.fst])
              (lt_of_lt_of_le hlt (Nat.lt_succ_iff.mp h1)) hnd2
          refine ⟨(ps.filter (fun p => stage_ready provided p.2)).map Prod.fst :: rest1,
            flag1, by rw [heq]; simp, ?_, ?_, ?_⟩
          · intro s hs
            rcases List.mem_flatten.mp hs with ⟨l, hl, hsl⟩
            rcases List.mem_cons.mp hl with rfl | hl2
            · rcases List.mem_map.mp hsl with ⟨e, he, rfl⟩
              exact List.mem_map_of_mem Prod.fst (List.mem_of_mem_filter he)
            · have := hsub s (List.mem_flatten.mpr ⟨l, hl2, hsl⟩)
              rcases List.mem_map.mp this with ⟨e, he, rfl⟩
              exact List.mem_map_of_mem Prod.fst (List.mem_of_mem_filter he)
          · intro hf s hs
            rcases List.mem_map.mp hs with ⟨e, he, rfl⟩
            rw [List.flatten_cons]
            by_cases hfe : stage_ready provided e.2 = true
            · exact List.mem_append_left _
                (List.mem_map_of_mem Prod.fst (List.mem_filter.mpr ⟨he, hfe⟩))
            · refine List.mem_append_right _ (hfalse hf e.1 ?_)
              exact List.mem_map_of_mem Prod.fst
                (List.mem_filter.mpr ⟨he, by simpa using hfe⟩)
          · intro hf
            obtain ⟨s, hs, hnot⟩ := htrue hf
            rcases List.mem_map.mp hs with ⟨e, he, rfl⟩
            have hef : (!stage_ready provided e.2) = true := (List.mem_filter.mp he).2
            refine ⟨e.1,
              List.mem_map_of_mem Prod.fst (List.mem_of_mem_filter he), ?_⟩
            rw [List.flatten_cons]
            intro hc
            rcases List.mem_append.mp hc with hc1 | hc1
            · rcases List.mem_map.mp hc1 with ⟨e2, he2, hee⟩
              have : e2 = e :=
                List.inj_on_of_nodup_map hnd
                  (List.mem_of_mem_filter he2) (List.mem_of_mem_filter he) hee
              subst this
              have := (List.mem_filter.mp he2).2
              simp [this] at hef
            · exact hnot hc1

end StagesLemmas

/-- C8: stages() terminates for every tracker (its result is fuel-stable at
any fuel beyond the provider count), and the unresolvable-dependency error
branch is taken exactly when some registered provider is missing from the
returned stages: an empty scan with providers remaining is reported (the
source logs an error) rather than looping forever or passing silently. -/
theorem c8_stages_terminates_and_reports :
    ∀ (K : Type) [DecidableEq K] (t : SetupTracker K),
      (t.providers.map Prod.fst).Nodup →
      (∀ extra : Nat,
          stages_loop (t.providers.length + 1 + extra) t.providers ∅ [] =
            t.stages)
      ∧ ((t.stages).2 = true ↔
          ∃ s ∈ t.providers.map Prod.fst, s ∉ (t.stages).1.flatten) := by
  intro K _ t hnd
  constructor
  · intro extra
    exact stages_loop_stable _ _ _ _ _ (by omega) (by omega)
  · obtain ⟨rest, flag, heq, hsub, hfalse, htrue⟩ :=
      stages_loop_spec (t.providers.length + 1) t.providers ∅ [] (by omega) hnd
    have hst : t.stages = (rest, flag) := by
      rw [SetupTracker.stages, heq]; simp
    rw [hst]
    constructor
    · exact htrue
    · rintro ⟨s, hs, hnot⟩
      cases hflag : flag with
      | true => rfl
      | false => exact absurd (hfalse hflag s hs) hnot

/-- Witness for C8 at a concrete tracker with distinct provider handles. -/
theorem c8_witness :
    (stagesT.providers.map Prod.fst).Nodup ∧
      ((stagesT.stages).2 = true ↔
        ∃ s ∈ stagesT.providers.map Prod.fst, s ∉ (stagesT.stages).1.flatten) :=
  ⟨by decide, (c8_stages_terminates_and_reports TK stagesT (by decide)).2⟩

section RegisterLemmas

variable {K : Type} [DecidableEq K] {W : Type}

/-- A present key is looked up in the left part of an appended entries
list. -/
theorem lookup_append_left (es es2 : List (K × Nat)) (k : K)
    (h : contains_key es k = true) :
    lookup_key (es ++ es2) k = lookup_key es k := by
  induction es with
  | nil => simp [contains_key, lookup_key] at h
  | cons e es ih =>
      by_cases he : e.1 = k
      · simp [lookup_key, he]
      · have h2 : contains_key es k = true := by
          simpa [contains_key, lookup_key, he] using h
        simpa [lookup_key, he] using ih h2

/-- add_keys only ever appends to the entries list. -/
theorem add_keys_entries_mono (regC : W → K → Nat × W) :
    ∀ (ks : List K) (es : List (K × Nat)) (w : W),
      ∃ es2, (add_keys regC es w ks).1 = es ++ es2 := by
  intro ks
  induction ks with
  | nil => intro es w; exact ⟨[], by simp [add_keys]⟩
  | cons k0 ks ih =>
      intro es w
      rw [add_keys]
      by_cases hc : contains_key es k0 = true
      · simpa [hc] using ih es w
      · simp only [hc, Bool.false_eq_true, if_false]
        obtain ⟨es2, he⟩ := ih (es ++ [(k0, (regC w k0).1)]) (regC w k0).2
        exact ⟨[(k0, (regC w k0).1)] ++ es2, by rw [he, List.append_assoc]⟩

/-- Keys present before add_keys stay present. -/
theorem add_keys_contains_mono (regC : W → K → Nat × W) (ks : List K)
    (es : List (K × Nat)) (w : W) (k : K) (h : contains_key es k = true) :
    contains_key (add_keys regC es w ks).1 k = true := by
  obtain ⟨es2, he⟩ := add_keys_entries_mono regC ks es w
  rw [he, contains_key_iff_mem, List.map_append]
  exact List.mem_append_left _ ((contains_key_iff_mem es k).mp h)

/-- Every key passed to add_keys is present afterwards. -/
theorem add_keys_adds (regC : W → K → Nat × W) :
    ∀ (ks : List K) (es : List (K × Nat)) (w : W),
      ∀ k ∈ ks, contains_key (add_keys regC es w ks).1 k = true := by
  intro ks
  induction ks with
  | nil => intro es w k hk; exact absurd hk (List.not_mem_nil k)
  | cons k0 ks ih =>
      intro es w k hk
      rw [add_keys]
      by_cases hc : contains_key es k0 = true
      · simp only [hc, if_true]
        rcases List.mem_cons.mp hk with rfl | hk2
        · exact add_keys_contains_mono regC ks es w k hc
        · exact ih es w k hk2
      · simp only [hc, Bool.false_eq_true, if_false]
        rcases List.mem_cons.mp hk with rfl | hk2
        · refine add_keys_contains_mono regC ks _ _ k ?_
          rw [contains_key_iff_mem]
          simp
        · exact ih _ _ k hk2

/-- A present key's checker handle is untouched by add_keys. -/
theorem add_keys_lookup_preserved (regC : W → K → Nat × W) (ks : List K)
    (es : List (K × Nat)) (w : W) (k : K) (h : contains_key es k = true) :
    lookup_key (add_keys regC es w ks).1 k = lookup_key es k := by
  obtain ⟨es2, he⟩ := add_keys_entries_mono regC ks es w
  rw [he, lookup_append_left es es2 k h]

/-- With the instrumented registration world, add_keys keeps the log equal
to the entry-key set and free of repeats. -/
theorem add_keys_log :
    ∀ (ks : List K) (es : List (K × Nat)) (w : Nat × List K),
      (∀ k : K, contains_key es k = true ↔ k ∈ w.2) → w.2.Nodup →
      (∀ k : K, contains_key (add_keys log_reg es w ks).1 k = true ↔
          k ∈ (add_keys log_reg es w ks).2.2) ∧
        (add_keys log_reg es w ks).2.2.Nodup := by
  intro ks
  induction ks with
  | nil => intro es w hiff hnd; exact ⟨hiff, hnd⟩
  | cons k0 ks ih =>
      intro es w hiff hnd
      rw [add_keys]
      by_cases hc : contains_key es k0 = true
      · simp only [hc, if_true]
        exact ih es w hiff hnd
      · simp only [hc, Bool.false_eq_true, if_false]
        have hk0 : k0 ∉ w.2 := fun hmem => hc ((hiff k0).mpr hmem)
        refine ih (es ++ [(k0, (log_reg w k0).1)]) (log_reg w k0).2 ?_ ?_
        · intro k
          rw [contains_key_iff_mem, log_reg]
          simp only [List.map_append, List.mem_append, List.map_cons,
            List.map_nil, List.mem_singleton, List.mem_cons]
          rw [← contains_key_iff_mem, hiff k]
        · rw [log_reg]
          simp only [List.nodup_append, List.nodup_singleton]
          exact ⟨hnd, trivial, by simpa using hk0⟩

/-- register_provider does not disturb the checker handle of any key that
is already registered. -/
theorem register_lookup_preserved (regC : W → K → Nat × W)
    (t : SetupTracker K) (w : W) (sys : Nat) (info : ProviderInfo K) (k : K)
    (h : contains_key t.entries k = true) :
    lookup_key ((register_provider regC t w sys info).1.entries) k =
      lookup_key t.entries k := by
  rw [register_provider]
  have h1 := add_keys_lookup_preserved regC info.requires t.entries w k h
  have hc1 : contains_key (add_keys regC t.entries w info.requires).1 k = true :=
    add_keys_contains_mono regC info.requires t.entries w k h
  have h2 := add_keys_lookup_preserved regC info.provides
    (add_keys regC t.entries w info.requires).1
    (add_keys regC t.entries w info.requires).2 k hc1
  simp only []
  rw [h2, h1]

/-- The instrumented register_all keeps the registration log duplicate-free
and equal to the entry-key set. -/
theorem register_all_log :
    ∀ (regs : List (Nat × ProviderInfo K)) (t : SetupTracker K)
      (w : Nat × List K),
      (∀ k : K, contains_key t.entries k = true ↔ k ∈ w.2) → w.2.Nodup →
      (∀ k : K,
          contains_key (register_all log_reg (t, w) regs).1.entries k = true ↔
            k ∈ (register_all log_reg (t, w) regs).2.2) ∧
        (register_all log_reg (t, w) regs).2.2.Nodup := by
  intro regs
  induction regs with
  | nil => intro t w hiff hnd; exact ⟨hiff, hnd⟩
  | cons r regs ih =>
      intro t w hiff hnd
      rw [register_all]
      obtain ⟨hiff1, hnd1⟩ := add_keys_log r.2.requires t.entries w hiff hnd
      obtain ⟨hiff2, hnd2⟩ := add_keys_log r.2.provides
        (add_keys log_reg t.entries w r.2.requires).1
        (add_keys log_reg t.entries w r.2.requires).2 hiff1 hnd1
      exact ih _ _ hiff2 hnd2

/-- register_provider preserves the every-provider-key-has-an-entry
invariant. -/
theorem register_preserves_wf (regC : W → K → Nat × W) (t : SetupTracker K)
    (w : W) (sys : Nat) (info : ProviderInfo K) (hwf : WellFormed t) :
    WellFormed (register_provider regC t w sys info).1 := by
  intro p hp
  rw [register_provider] at hp ⊢
  simp only [insert_provider, List.mem_append, List.mem_singleton] at hp
  rcases hp with hp | hp
  · have hp2 : p ∈ t.providers := List.mem_of_mem_filter hp
    obtain ⟨hr, hv⟩ := hwf p hp2
    constructor
    · intro k hk
      exact add_keys_contains_mono regC info.provides _ _ k
        (add_keys_contains_mono regC info.requires t.entries w k (hr k hk))
    · intro k hk
      exact add_keys_contains_mono regC info.provides _ _ k
        (add_keys_contains_mono regC info.requires t.entries w k (hv k hk))
  · subst hp
    constructor
    · intro k hk
      exact add_keys_contains_mono regC info.provides _ _ k
        (add_keys_adds regC info.requires t.entries w k hk)
    · intro k hk
      exact add_keys_adds regC info.provides _ _ k hk

/-- Any tracker built by a register_provider sequence from a fresh tracker
is well-formed. -/
theorem register_all_wf (regC : W → K → Nat × W) :
    ∀ (regs : List (Nat × ProviderInfo K)) (t : SetupTracker K) (w : W),
      WellFormed t → WellFormed (register_all regC (t, w) regs).1 := by
  intro regs
  induction regs with
  | nil => intro t w hwf; exact hwf
  | cons r regs ih =>
      intro t w hwf
      rw [register_all]
      exact ih _ _ (register_preserves_wf regC t w r.1 r.2 hwf)

/-- check_keys never hits the missing-entry branch when every key it scans
is present. -/
theorem check_keys_isSome (es : List (K × Nat)) (cv : Nat → Progress)
    (cont : Progress → Bool) :
    ∀ ks : List K, (∀ k ∈ ks, contains_key es k = true) →
      (check_keys es cv cont ks).isSome = true := by
  intro ks
  induction ks with
  | nil => intro _; rfl
  | cons k0 ks ih =>
      intro h
      rw [check_keys]
      rcases hl : lookup_key es k0 with _ | c
      · have := h k0 (List.mem_cons_self k0 ks)
        rw [contains_key, hl] at this
        simp at this
      · by_cases hcont : cont (cv c) = true
        · simpa [hcont] using ih (fun k hk => h k (List.mem_cons_of_mem k0 hk))
        · simp [hcont]

/-- should_run never misses a map lookup when the provider's keys are all
registered. -/
theorem should_run_isSome (es : List (K × Nat)) (cv : Nat → Progress)
    (info : ProviderInfo K)
    (hreq : ∀ k ∈ info.requires, contains_key es k = true)
    (hprov : ∀ k ∈ info.provides, contains_key es k = true) :
    (info.should_run es cv).isSome = true := by
  rw [ProviderInfo.should_run]
  rcases hp : check_keys es cv (fun p => !p.finished) info.provides with _ | b
  · have := check_keys_isSome es cv (fun p => !p.finished) info.provides hprov
    rw [hp] at this
    simp at this
  · cases b
    · rfl
    · simpa using check_keys_isSome es cv (fun p => p.finished) info.requires hreq

end RegisterLemmas

/-- C9: across any sequence of register_provider calls on one tracker, each
distinct key's progress-checker registration is invoked at most once (the
instrumented invocation log has no repeats and matches exactly the entry
keys, which record first appearances), and registering a provider that
mentions an already-present key leaves that key's entry unchanged. -/
theorem c9_register_idempotent :
    (∀ (K : Type) [DecidableEq K] (regs : List (Nat × ProviderInfo K))
        (fin0 : Nat),
        (register_all log_reg (SetupTracker.new fin0, (0, ([] : List K))) regs).2.2.Nodup ∧
          ∀ k : K,
            contains_key
                (register_all log_reg (SetupTracker.new fin0, (0, ([] : List K))) regs).1.entries
                k = true ↔
              k ∈ (register_all log_reg (SetupTracker.new fin0, (0, ([] : List K))) regs).2.2)
    ∧ ∀ (K : Type) [DecidableEq K] (W : Type) (regC : W → K → Nat × W)
        (t : SetupTracker K) (w : W) (sys : Nat) (info : ProviderInfo K)
        (k : K), contains_key t.entries k = true →
          lookup_key ((register_provider regC t w sys info).1.entries) k =
            lookup_key t.entries k := by
  constructor
  · intro K _ regs fin0
    obtain ⟨hiff, hnd⟩ :=
      register_all_log regs (SetupTracker.new fin0) (0, ([] : List K))
        (fun k => by simp [SetupTracker.new, contains_key, lookup_key])
        List.nodup_nil
    exact ⟨hnd, hiff⟩
  · intro K _ W regC t w sys info k h
    exact register_lookup_preserved regC t w sys info k h

/-- Witness for C9: registering a provider that mentions the already
present key a leaves its entry unchanged. -/
theorem c9_witness :
    contains_key okT.entries TK.a = true ∧
      lookup_key
          ((register_provider log_reg okT ((5 : Nat), ([] : List TK)) 9
            ⟨[TK.a], [TK.c], "w"⟩).1.entries) TK.a =
        lookup_key okT.entries TK.a :=
  ⟨by decide,
    c9_register_idempotent.2 TK (Nat × List TK) log_reg okT (5, []) 9
      ⟨[TK.a], [TK.c], "w"⟩ TK.a (by decide)⟩

/-- C10: every tracker assembled through register_provider has an entry for
every key mentioned in any registered provider's requires or provides, so
the unchecked entry lookups of should_run (and the per-key checker lookups
of the tick step) cannot miss. -/
theorem c10_registered_keys_present :
    ∀ (K : Type) [DecidableEq K] (W : Type) (regC : W → K → Nat × W)
      (regs : List (Nat × ProviderInfo K)) (fin0 : Nat) (w0 : W),
      WellFormed (register_all regC (SetupTracker.new fin0, w0) regs).1 ∧
        ∀ p ∈ (register_all regC (SetupTracker.new fin0, w0) regs).1.providers,
          ∀ cv : Nat → Progress,
            (p.2.should_run
                (register_all regC (SetupTracker.new fin0, w0) regs).1.entries
                cv).isSome = true := by
  intro K _ W regC regs fin0 w0
  have hwf : WellFormed (register_all regC (SetupTracker.new fin0, w0) regs).1 :=
    register_all_wf regC regs (SetupTracker.new fin0) w0
      (fun p hp => absurd hp (List.not_mem_nil p))
  refine ⟨hwf, ?_⟩
  intro p hp cv
  obtain ⟨hr, hv⟩ := hwf p hp
  exact should_run_isSome _ cv p.2 hr hv

/-- Witness for C10 at a concrete registration sequence and provider. -/
theorem c10_witness :
    ((2, (⟨[TK.a], [TK.b], "pb"⟩ : ProviderInfo TK)) ∈
        (register_all log_reg (SetupTracker.new 0, (0, ([] : List TK))) regsW).1.providers) ∧
      (((⟨[TK.a], [TK.b], "pb"⟩ : ProviderInfo TK)).should_run
          (register_all log_reg (SetupTracker.new 0, (0, ([] : List TK))) regsW).1.entries
          cvC).isSome = true :=
  ⟨by decide,
    (c10_registered_keys_present TK (Nat × List TK) log_reg regsW 0
        (0, [])).2 (2, ⟨[TK.a], [TK.b], "pb"⟩) (by decide) cvC⟩

end BirdBarrier

